import Mathlib

/-!
# go-grpc-server: the `DeployService` handler and the visited-type helper

A shallow embedding of

* `internal/app/adapter/grpc-server/order-server.go`: `Server`, `NewServer` and
  `Server.DeployService`;
* `internal/app/adapter/grpc-server/order-server_test.go`: `isVisitedSubType`.

Go values that live behind pointers (request and response messages, the backing
arrays of `[]string` slices, servers) are kept in an explicit heap, so that
"the handler allocates its own output and writes nowhere else" is a statement
about the code and not a convention of the model.  A handler call takes the
heap before the call and returns the heap after it.

Concurrent calls are control states of the same handler, stepping one heap
access at a time on a shared heap under an arbitrary schedule.
-/

namespace GrpcServer

/-! ## Data model -/

/-- An address in one of the heap's tables. -/
abbrev Addr := Nat

/-- A Go `[]string` value: either the nil slice, or a header made of the backing
array's address, the offset of the first element in it, the length and the
capacity. -/
inductive Slice where
  | nil : Slice
  | mk (array : Addr) (off : Nat) (len : Nat) (cap : Nat) : Slice
  deriving DecidableEq, Repr

/-- Modelled from the spec: the generated message type `pb.DeployServiceRequest`
(package `internal/app/protos/orderservice`) is `{ service_ids: sequence of string }`;
its Go field is `ServiceIds []string`. -/
structure DeployServiceRequest where
  ServiceIds : Slice
  deriving DecidableEq, Repr

/-- Modelled from the spec: the generated message type `pb.DeployServiceResponse`
is `{ service_ids: sequence of string }`; its Go field is `ServiceIds []string`. -/
structure DeployServiceResponse where
  ServiceIds : Slice
  deriving DecidableEq, Repr

/-- `type Server struct { pb.UnimplementedOrderServiceServer }`.  The embedded
generated struct is declared outside the handler's file; its content is the
parameter `U`. -/
structure Server (U : Type) where
  UnimplementedOrderServiceServer : U

/-- `func NewServer() *Server { return &Server{} }`: the server whose embedded
struct has its zero value. -/
def NewServer {U : Type} (zero : U) : Server U :=
  { UnimplementedOrderServiceServer := zero }

/-- The heap: backing arrays of string slices, request messages, response
messages and servers, each table indexed by address.  Allocation appends to a
table, so the fresh address is the table's length. -/
structure Heap (U : Type) where
  arrays : List (List String)
  requests : List DeployServiceRequest
  responses : List DeployServiceResponse
  servers : List (Server U)

/-- The state of a `context.Context` as a callee can observe it. -/
inductive CtxState where
  | live
  | cancelled
  | expired
  deriving DecidableEq, Repr

/-- A `context.Context`: its state, its deadline if any, and its key/value pairs. -/
structure Context where
  state : CtxState
  deadline : Option Nat
  values : List (String × String)
  deriving DecidableEq, Repr

/-- The gRPC status codes (`google.golang.org/grpc/codes`). -/
inductive Code where
  | OK | Canceled | Unknown | InvalidArgument | DeadlineExceeded | NotFound
  | AlreadyExists | PermissionDenied | ResourceExhausted | FailedPrecondition
  | Aborted | OutOfRange | Unimplemented | Internal | Unavailable | DataLoss
  | Unauthenticated
  deriving DecidableEq, Repr

/-- Go `error` values.  `errorString` is what package `errors` builds: a struct
holding only the text.  `statusError` is a gRPC status error
(`google.golang.org/grpc/status`), which has a `GRPCStatus` method and carries a
code with its message. -/
inductive GoError where
  | errorString (s : String) : GoError
  | statusError (code : Code) (msg : String) : GoError
  deriving DecidableEq, Repr

/-- The `Error()` method: the error's message. -/
def GoError.Error : GoError → String
  | .errorString s => s
  | .statusError _ msg => msg

/-- The code an error value carries itself: the code of its `GRPCStatus()`
when it has that method, nothing otherwise. -/
def GoError.GRPCStatus : GoError → Option Code
  | .errorString _ => none
  | .statusError code _ => some code

/-- `errors.New(text)`. -/
def errors.New (text : String) : GoError :=
  .errorString text

/-- The gRPC library's `status.Code(err)` (`google.golang.org/grpc/status`, a
dependency of the repository): `OK` for a nil error, the carried code for an
error with a `GRPCStatus` method, `Unknown` for every other error. -/
def status.Code : Option GoError → Code
  | none => .OK
  | some e =>
    match e.GRPCStatus with
    | some c => c
    | none => .Unknown

/-! ## Slices on the heap -/

/-- Go's `len` on a string slice. -/
def len : Slice → Nat
  | .nil => 0
  | .mk _ _ n _ => n

/-- Dereference of a request pointer (the zero message at an address that holds
nothing). -/
def Heap.deref {U : Type} (h : Heap U) (p : Addr) : DeployServiceRequest :=
  h.requests.getD p ⟨.nil⟩

/-- The element `s[i]` as the heap holds it (the zero string outside what is
allocated). -/
def Heap.index {U : Type} (h : Heap U) (s : Slice) (i : Nat) : String :=
  match s with
  | .nil => ""
  | .mk a off _ _ => (h.arrays.getD a []).getD (off + i) ""

/-- The sequence of elements of a slice: `s[0], ..., s[len(s)-1]`. -/
def Heap.elems {U : Type} (h : Heap U) (s : Slice) : List String :=
  (List.range (len s)).map (h.index s)

/-- The identifier sequence of the request message at `p`. -/
def Heap.requestIds {U : Type} (h : Heap U) (p : Addr) : List String :=
  h.elems (h.deref p).ServiceIds

/-- The identifier sequence of the response message at `r`. -/
def Heap.responseIds {U : Type} (h : Heap U) (r : Addr) : List String :=
  h.elems (h.responses.getD r ⟨.nil⟩).ServiceIds

/-- A slice is well formed in a heap: nil, or its backing array is allocated,
its length is within its capacity and its elements lie inside the array. -/
def Slice.wf {U : Type} (s : Slice) (h : Heap U) : Prop :=
  match s with
  | .nil => True
  | .mk a off n c => a < h.arrays.length ∧ n ≤ c ∧ off + n ≤ (h.arrays.getD a []).length

instance {U : Type} (s : Slice) (h : Heap U) : Decidable (s.wf h) := by
  cases s <;> unfold Slice.wf <;> infer_instance

/-- A request pointer is valid in a heap: it points to an allocated request
message whose identifier slice is well formed. -/
def Heap.validReq {U : Type} (h : Heap U) (p : Addr) : Prop :=
  p < h.requests.length ∧ (h.deref p).ServiceIds.wf h

instance {U : Type} (h : Heap U) (p : Addr) : Decidable (h.validReq p) := by
  unfold Heap.validReq; infer_instance

/-- `make([]string, 0, c)`: a fresh backing array of `c` zero strings and the
empty, non-nil slice over it. -/
def make {U : Type} (h : Heap U) (c : Nat) : Heap U × Slice :=
  ({ h with arrays := h.arrays ++ [List.replicate c ""] }, .mk h.arrays.length 0 0 c)

/-- `append(s, x)` for one element.  With spare capacity the element is written
in place into the backing array; otherwise the elements are copied into a fresh
array, whose capacity the runtime chooses (`grow` of the old capacity, and at
least what is needed). -/
def append {U : Type} (grow : Nat → Nat) (h : Heap U) (s : Slice) (x : String) :
    Heap U × Slice :=
  let realloc (n c : Nat) : Heap U × Slice :=
    let newcap := max (grow c) (n + 1)
    ({ h with arrays := h.arrays ++ [h.elems s ++ [x] ++ List.replicate (newcap - (n + 1)) ""] },
      .mk h.arrays.length 0 (n + 1) newcap)
  match s with
  | .nil => realloc 0 0
  | .mk a off n c =>
    if n < c then
      ({ h with arrays := h.arrays.set a ((h.arrays.getD a []).set (off + n) x) },
        .mk a off (n + 1) c)
    else realloc n c

/-- Allocation of a response message: `&pb.DeployServiceResponse{...}`. -/
def Heap.newResponse {U : Type} (h : Heap U) (r : DeployServiceResponse) : Heap U × Addr :=
  ({ h with responses := h.responses ++ [r] }, h.responses.length)

/-! ## The handler -/

/-- The loop `for _, id := range src { dst = append(dst, id) }`, at index `i`
with `k` iterations to go.  The range expression is evaluated once, before the
loop; each element is read when its iteration runs. -/
def rangeLoop {U : Type} (grow : Nat → Nat) (src : Slice) :
    Nat → Nat → Heap U → Slice → Heap U × Slice
  | _, 0, h, dst => (h, dst)
  | i, k + 1, h, dst =>
    let id := h.index src i
    let r := append grow h dst id
    rangeLoop grow src (i + 1) k r.1 r.2

/-- `func (s *Server) DeployService(_ context.Context, req *pb.DeployServiceRequest)
(*pb.DeployServiceResponse, error)`.  `s` is the receiver pointer, `req` the
request pointer (`none` is nil); the result is the heap after the call, the
response pointer and the error. -/
def DeployService {U : Type} (grow : Nat → Nat) (h : Heap U) (_s : Addr) (_ctx : Context)
    (req : Option Addr) : Heap U × Option Addr × Option GoError :=
  match req with
  | none => (h, none, some (errors.New "bad request - nil DeployServiceRequest"))
  | some p =>
    let m := make h (len (h.deref p).ServiceIds)
    let src := (m.1.deref p).ServiceIds
    let l := rangeLoop grow src 0 (len src) m.1 m.2
    let r := l.1.newResponse { ServiceIds := l.2 }
    (r.1, some r.2, none)

/-- What a caller sees of a call's result: the response's identifier sequence
when there is a response, the error's message when there is an error. -/
def observe {U : Type} (r : Heap U × Option Addr × Option GoError) :
    Option (List String) × Option String :=
  (r.2.1.map r.1.responseIds, r.2.2.map GoError.Error)

/-- One invocation: the receiver, the context and the request pointer. -/
structure Call where
  s : Addr
  ctx : Context
  req : Option Addr
  deriving DecidableEq, Repr

/-- A sequence of invocations run one after the other on the same heap: the
heap after the last one and what each caller saw. -/
def serve {U : Type} (grow : Nat → Nat) :
    Heap U → List Call → Heap U × List (Option (List String) × Option String)
  | h, [] => (h, [])
  | h, c :: cs =>
    let r := DeployService grow h c.s c.ctx c.req
    let rest := serve grow r.1 cs
    (rest.1, observe r :: rest.2)

/-! ## Concurrent calls

The transport runs each incoming call on its own goroutine.  A running call is
a control state of the handler; one step of a call is one access of the handler
to the heap, and a schedule interleaves the steps of the calls on the one heap
they share. -/

/-- The control state of one running call of `DeployService`:

* `start c`: the call `c` has been issued and no statement has run;
* `made p dst`: line 23 has run, `dst` is `deployedServiceIds`;
* `loop src i k dst`: at the head of the `range` loop over `src`, at index `i`
  with `k` iterations to go;
* `fetched src i k dst id`: inside the loop body, the element `id` has been read
  and the `append` of line 26 is still to run;
* `done resp err`: the call has returned `resp, err`. -/
inductive Thread where
  | start (c : Call) : Thread
  | made (p : Addr) (dst : Slice) : Thread
  | loop (src : Slice) (i : Nat) (k : Nat) (dst : Slice) : Thread
  | fetched (src : Slice) (i : Nat) (k : Nat) (dst : Slice) (id : String) : Thread
  | done (resp : Option Addr) (err : Option GoError) : Thread
  deriving DecidableEq, Repr

/-- One step of a running call on the heap, built from the same `make`,
`Heap.index`, `append` and `Heap.newResponse` as `DeployService`:
lines 19-21 or line 23 from `start`; the evaluation of the range expression from
`made`; the read of the next element, or lines 29-31 when none is left, from
`loop`; the `append` of line 26 from `fetched`.  A call that has returned stays as
it is. -/
def Thread.step {U : Type} (grow : Nat → Nat) (h : Heap U) : Thread → Heap U × Thread
  | .start c =>
    match c.req with
    | none => (h, .done none (some (errors.New "bad request - nil DeployServiceRequest")))
    | some p =>
      let m := make h (len (h.deref p).ServiceIds)
      (m.1, .made p m.2)
  | .made p dst => (h, .loop (h.deref p).ServiceIds 0 (len (h.deref p).ServiceIds) dst)
  | .loop _ _ 0 dst =>
    let r := h.newResponse { ServiceIds := dst }
    (r.1, .done (some r.2) none)
  | .loop src i (k + 1) dst => (h, .fetched src i k dst (h.index src i))
  | .fetched src i k dst id =>
    let r := append grow h dst id
    (r.1, .loop src (i + 1) k r.2)
  | .done resp err => (h, .done resp err)

/-- The scheduler gives one turn to the call at index `i`: that call takes one
step on the shared heap (nothing happens when there is no such call). -/
def turn {U : Type} (grow : Nat → Nat) (st : Heap U × List Thread) (i : Nat) :
    Heap U × List Thread :=
  match st.2[i]? with
  | none => st
  | some t => ((t.step grow st.1).1, st.2.set i (t.step grow st.1).2)

/-- A schedule is the sequence of the indices of the calls that get the turns,
in order; `schedule` runs it. -/
def schedule {U : Type} (grow : Nat → Nat) (st : Heap U × List Thread) (sched : List Nat) :
    Heap U × List Thread :=
  sched.foldl (turn grow) st

/-- The number of steps a running call still takes before it has returned, the
requests being read in the heap `h0`. -/
def Thread.remaining {U : Type} (h0 : Heap U) : Thread → Nat
  | .start c =>
    match c.req with
    | none => 1
    | some p => 2 * len (h0.deref p).ServiceIds + 3
  | .made p _ => 2 * len (h0.deref p).ServiceIds + 2
  | .loop _ _ k _ => 2 * k + 1
  | .fetched _ _ k _ _ => 2 * k + 2
  | .done _ _ => 0

/-- The invariant of one running call `c` in the heap `h`, the calls having been
issued in the heap `h0`: the second argument is the address of the backing array
the call has allocated for its own output, if it has; that array has the length
of the call's request and its first `i` cells hold the first `i` identifiers of
the request; a returned call's response message is a slice over the whole of
that array, which holds the request's identifier sequence. -/
inductive Good {U : Type} (h0 h : Heap U) (c : Call) : Option Addr → Thread → Prop where
  | start : Good h0 h c none (.start c)
  | made (p a : Addr) :
      c.req = some p →
      (h.arrays.getD a []).length = len (h0.deref p).ServiceIds →
      Good h0 h c (some a) (.made p (.mk a 0 0 (len (h0.deref p).ServiceIds)))
  | loop (p a : Addr) (i k : Nat) :
      c.req = some p →
      i + k = len (h0.deref p).ServiceIds →
      (h.arrays.getD a []).length = len (h0.deref p).ServiceIds →
      (h.arrays.getD a []).take i = (h0.requestIds p).take i →
      Good h0 h c (some a)
        (.loop (h0.deref p).ServiceIds i k (.mk a 0 i (len (h0.deref p).ServiceIds)))
  | fetched (p a : Addr) (i k : Nat) :
      c.req = some p →
      i + k + 1 = len (h0.deref p).ServiceIds →
      (h.arrays.getD a []).length = len (h0.deref p).ServiceIds →
      (h.arrays.getD a []).take i = (h0.requestIds p).take i →
      Good h0 h c (some a)
        (.fetched (h0.deref p).ServiceIds i k (.mk a 0 i (len (h0.deref p).ServiceIds))
          (h0.index (h0.deref p).ServiceIds i))
  | doneNil :
      c.req = none →
      Good h0 h c none (.done none (some (errors.New "bad request - nil DeployServiceRequest")))
  | done (p a r : Addr) :
      c.req = some p →
      r < h.responses.length →
      h.responses.getD r ⟨.nil⟩ =
        { ServiceIds := .mk a 0 (len (h0.deref p).ServiceIds) (len (h0.deref p).ServiceIds) } →
      h.arrays.getD a [] = h0.requestIds p →
      Good h0 h c (some a) (.done (some r) none)

/-- What a step may change in the heap, from `h` to `h'`: the request table is
kept, the response table is extended, no array is freed, and of the arrays of
`h` only the one at `w` may have been written. -/
structure Frame {U : Type} (h h' : Heap U) (w : Option Addr) : Prop where
  requests : h'.requests = h.requests
  responses : ∃ rs, h'.responses = h.responses ++ rs
  length : h.arrays.length ≤ h'.arrays.length
  arrays : ∀ b, b < h.arrays.length → some b ≠ w → h'.arrays.getD b [] = h.arrays.getD b []

/-- The invariant of the calls `cs`, issued in the heap `h0`, while they run: the
request table and the arrays of `h0` are what they were, and the running calls
own pairwise distinct arrays, allocated after `h0`, each call satisfying `Good`
for its own. -/
structure Inv {U : Type} (h0 : Heap U) (cs : List Call) (st : Heap U × List Thread) :
    Prop where
  requests : st.1.requests = h0.requests
  length : h0.arrays.length ≤ st.1.arrays.length
  pre : ∀ b, b < h0.arrays.length → st.1.arrays.getD b [] = h0.arrays.getD b []
  own : ∃ own : Nat → Option Addr,
    (∀ i a, own i = some a → h0.arrays.length ≤ a ∧ a < st.1.arrays.length) ∧
    (∀ i j a, own i = some a → own j = some a → i = j) ∧
    (∀ i t, st.2[i]? = some t → ∃ c, cs[i]? = some c ∧ Good h0 st.1 c (own i) t)

/-! ## The visited-type helper of the test file -/

/-- The kinds of Go types (`reflect.Kind`). -/
inductive ReflectKind where
  | Invalid | Bool | Int | Int8 | Int16 | Int32 | Int64 | Uint | Uint8 | Uint16
  | Uint32 | Uint64 | Uintptr | Float32 | Float64 | Complex64 | Complex128 | Array
  | Chan | Func | Interface | Map | Pointer | Slice | String | Struct | UnsafePointer
  deriving DecidableEq, Repr

/-- What the test helpers read of a `reflect.Type`: `Name()`, `PkgPath()` and
`Kind()`.  `isVisitedSubType` reads the first two only. -/
structure ReflectType where
  Name : String
  PkgPath : String
  Kind : ReflectKind
  deriving DecidableEq, Repr

/-- A Go `map[string]bool`: `none` is the nil map, `some f` a map whose entry
at key `k` is `f k`. -/
abbrev GoMap := Option (String → Option Bool)

/-- The entry of a map at a key (a nil map has none). -/
def GoMap.lookup (m : GoMap) (k : String) : Option Bool :=
  match m with
  | none => none
  | some f => f k

/-- The qualified name `typeDef.PkgPath() + "." + typeDef.Name()`. -/
def qualifiedName (typeDef : ReflectType) : String :=
  typeDef.PkgPath ++ "." ++ typeDef.Name

/-- `func isVisitedSubType(typeDef reflect.Type, visitedSubTypes map[string]bool) bool`.
The map is a reference, so the result carries the map after the call.  An
assignment to an entry of a nil map panics: that is the `error` result.  The
source's comment on the first branch speaks of a pointer type; the branch is
taken by every type whose name is empty, whatever its kind. -/
def isVisitedSubType (typeDef : ReflectType) (visitedSubTypes : GoMap) :
    Except String (Bool × GoMap) :=
  if typeDef.Name = "" then
    .ok (false, visitedSubTypes)
  else
    let s := qualifiedName typeDef
    if (visitedSubTypes.lookup s).isSome then
      .ok (true, visitedSubTypes)
    else
      match visitedSubTypes with
      | none => .error "assignment to entry in nil map"
      | some f => .ok (false, some (Function.update f s (some true)))

/-! ## Concrete states -/

/-- A heap holding one server and the request of the repository's test,
`ServiceIds: ["1", "2", "3"]`. -/
def testHeap : Heap Unit :=
  { arrays := [["1", "2", "3"]]
    requests := [{ ServiceIds := .mk 0 0 3 3 }]
    responses := []
    servers := [NewServer ()] }

/-- A heap holding one request message whose identifier slice is the whole of a
backing array holding `S`. -/
def requestHeap (S : List String) : Heap Unit :=
  { arrays := [S]
    requests := [{ ServiceIds := .mk 0 0 S.length S.length }]
    responses := []
    servers := [NewServer ()] }

/-- A live context without deadline or values, as `context.TODO()`. -/
def todoCtx : Context :=
  { state := .live, deadline := none, values := [] }

/-- A cancelled context. -/
def cancelledCtx : Context :=
  { state := .cancelled, deadline := none, values := [] }

/-- The runtime growth policy that doubles the capacity. -/
def double (c : Nat) : Nat := 2 * c

/-- Three calls on `testHeap`: the test's request, a nil request, the test's
request again under a cancelled context. -/
def testCalls : List Call :=
  [{ s := 0, ctx := todoCtx, req := some 0 },
   { s := 0, ctx := todoCtx, req := none },
   { s := 0, ctx := cancelledCtx, req := some 0 }]

/-- A heap holding two request messages with distinct identifier sequences,
`["1", "2", "3"]` and `["a", "a", ""]`. -/
def twoHeap : Heap Unit :=
  { arrays := [["1", "2", "3"], ["a", "a", ""]]
    requests := [{ ServiceIds := .mk 0 0 3 3 }, { ServiceIds := .mk 1 0 3 3 }]
    responses := []
    servers := [NewServer ()] }

/-- Two calls on the same server, one for each request of `twoHeap`. -/
def twoCalls : List Call :=
  [{ s := 0, ctx := todoCtx, req := some 0 },
   { s := 0, ctx := todoCtx, req := some 1 }]

/-- A schedule that interleaves the two calls of `twoCalls` step by step, each
getting nine turns. -/
def twoSchedule : List Nat :=
  [0, 1, 1, 0, 0, 1, 0, 1, 1, 1, 0, 0, 0, 1, 1, 0, 1, 0]

/-- The `Server` type of the handler's package, as `reflect` names it. -/
def serverType : ReflectType :=
  { Name := "Server"
    PkgPath := "go-grpc-server/internal/app/adapter/grpc-server"
    Kind := .Struct }

/-- The type `Option` of the same package: another name, the same package path. -/
def optionType : ReflectType :=
  { Name := "Option"
    PkgPath := "go-grpc-server/internal/app/adapter/grpc-server"
    Kind := .Interface }

/-- The type `[]string` of the `ServiceIds` field: unnamed, and a slice. -/
def stringSliceType : ReflectType :=
  { Name := "", PkgPath := "", Kind := .Slice }

/-- The empty, non-nil map `map[string]bool{}` that `evaluateReceived` passes. -/
def emptyVisited : GoMap :=
  some (fun _ => none)

/-- The map `emptyVisited` after `serverType` has been visited. -/
def serverVisited : GoMap :=
  some (Function.update (fun _ => none)
    "go-grpc-server/internal/app/adapter/grpc-server.Server" (some true))

/-! ## Lists as heap tables -/

theorem set_length_append {α : Type} (l : List α) (b c : α) :
    (l ++ [b]).set l.length c = l ++ [c] := by
  induction l with
  | nil => rfl
  | cons a l ih => simp [List.set, ih]

theorem getD_length_append {α : Type} (l : List α) (b d : α) :
    (l ++ [b]).getD l.length d = b := by
  induction l with
  | nil => rfl
  | cons a l ih => simp

theorem getD_append_lt {α : Type} (l r : List α) (d : α) (a : Nat) (ha : a < l.length) :
    (l ++ r).getD a d = l.getD a d := by
  induction l generalizing a with
  | nil => simp at ha
  | cons x l ih =>
    cases a with
    | zero => rfl
    | succ a =>
      have : a < l.length := by simpa using ha
      simpa [List.getD] using ih a this

theorem take_succ_set {α : Type} (l : List α) (i : Nat) (x : α) (hi : i < l.length) :
    (l.set i x).take (i + 1) = l.take i ++ [x] := by
  induction l generalizing i with
  | nil => simp at hi
  | cons a l ih =>
    cases i with
    | zero => simp
    | succ i =>
      have : i < l.length := by simpa using hi
      simp [List.set, List.take, ih i this]

theorem map_getD_range {α : Type} (l : List α) (d : α) :
    (List.range l.length).map (fun j => l.getD j d) = l := by
  apply List.ext_getElem
  · simp
  · intro n h1 h2
    simp [List.getD, List.getElem?_eq_getElem h2]

/-- Every list of strings is the identifier sequence of a valid request. -/
theorem requestHeap_ids (S : List String) :
    (requestHeap S).validReq 0 ∧ (requestHeap S).requestIds 0 = S := by
  refine ⟨⟨by simp [requestHeap], ?_⟩, ?_⟩
  · show Slice.wf (Slice.mk 0 0 S.length S.length) (requestHeap S)
    simp [Slice.wf, requestHeap]
  · show List.map (fun i => S.getD (0 + i) "") (List.range S.length) = S
    simp only [Nat.zero_add]
    exact map_getD_range S ""

/-! ## The copy loop -/

theorem index_append_of_wf {U : Type} (h0 : Heap U) (src : Slice) (new : List (List String))
    (hs : src.wf h0) (i : Nat) :
    Heap.index { h0 with arrays := h0.arrays ++ new } src i = h0.index src i := by
  cases src with
  | nil => rfl
  | mk a off n c =>
    have ha : a < h0.arrays.length := hs.1
    simp only [Heap.index]
    rw [getD_append_lt _ _ _ _ ha]

/-- The loop invariant of the handler's copy loop.  Started at index `i` with the
destination slice of length `i` over the fresh array `buf` of `n` cells, the loop
ends with the destination slice of length `n` over the same fresh array, every
other table of the heap untouched; when the source slice is well formed, the
cells from `i` on hold the source's elements from `i` on. -/
theorem rangeLoop_spec {U : Type} (grow : Nat → Nat) (src : Slice) (h0 : Heap U) (n : Nat) :
    ∀ (k i : Nat) (buf : List String), i + k = n → buf.length = n →
      ∃ buf', buf'.length = n ∧
        rangeLoop grow src i k { h0 with arrays := h0.arrays ++ [buf] }
            (.mk h0.arrays.length 0 i n)
          = ({ h0 with arrays := h0.arrays ++ [buf'] }, .mk h0.arrays.length 0 n n) ∧
        (src.wf h0 → buf' = buf.take i ++ (List.range' i k).map (h0.index src)) := by
  intro k
  induction k with
  | zero =>
    intro i buf hik hb
    have hi : i = n := by omega
    subst hi
    refine ⟨buf, hb, ?_, ?_⟩
    · simp [rangeLoop]
    · intro _
      simp [← hb]
  | succ k ih =>
    intro i buf hik hb
    have hi : i < n := by omega
    obtain ⟨buf', hl, hrun, hcont⟩ :=
      ih (i + 1) (buf.set i (Heap.index { h0 with arrays := h0.arrays ++ [buf] } src i))
        (by omega) (by simp [hb])
    refine ⟨buf', hl, ?_, ?_⟩
    · rw [rangeLoop]
      simp only [append, hi, if_true, Nat.zero_add, set_length_append, getD_length_append]
      exact hrun
    · intro hs
      rw [hcont hs, index_append_of_wf h0 src [buf] hs, take_succ_set _ _ _ (by omega),
        List.range'_succ]
      simp

/-! ## The handler on a present request -/

/-- A call with a present request allocates one backing array and one response
message over it, and changes nothing else in the heap; when the request pointer
is valid the new array holds the request's identifier sequence. -/
theorem DeployService_some {U : Type} (grow : Nat → Nat) (h : Heap U) (s : Addr)
    (ctx : Context) (p : Addr) :
    ∃ buf : List String,
      DeployService grow h s ctx (some p) =
        ({ h with
            arrays := h.arrays ++ [buf]
            responses := h.responses ++
              [{ ServiceIds := .mk h.arrays.length 0 buf.length buf.length }] },
          some h.responses.length, none) ∧
      (h.validReq p → buf = h.requestIds p) := by
  obtain ⟨buf, hl, hrun, hcont⟩ :=
    rangeLoop_spec grow (h.deref p).ServiceIds h (len (h.deref p).ServiceIds)
      (len (h.deref p).ServiceIds) 0 (List.replicate (len (h.deref p).ServiceIds) "")
      (by omega) (by simp)
  refine ⟨buf, ?_, ?_⟩
  · simp only [DeployService, make, Heap.deref, Heap.newResponse] at hrun ⊢
    rw [hrun, hl]
    rfl
  · intro hv
    rw [hcont hv.2]
    simp [Heap.requestIds, Heap.elems, List.range_eq_range']

/-- The response message a call allocates reads back as the array it was built
over. -/
theorem responseIds_new {U : Type} (h : Heap U) (buf : List String) :
    Heap.responseIds
      { h with
          arrays := h.arrays ++ [buf]
          responses := h.responses ++
            [{ ServiceIds := .mk h.arrays.length 0 buf.length buf.length }] }
      h.responses.length = buf := by
  simp only [Heap.responseIds, Heap.elems, getD_length_append, len]
  have : (Heap.index
      { h with
          arrays := h.arrays ++ [buf]
          responses := h.responses ++
            [{ ServiceIds := .mk h.arrays.length 0 buf.length buf.length }] }
      (.mk h.arrays.length 0 buf.length buf.length)) = fun j => buf.getD j "" := by
    funext j
    simp only [Heap.index, getD_length_append, Nat.zero_add]
  rw [this, map_getD_range]

/-- Growing the array and response tables keeps every valid request valid. -/
theorem validReq_frame {U : Type} (h : Heap U) (new : List (List String))
    (rs : List DeployServiceResponse) (p : Addr) (hv : h.validReq p) :
    Heap.validReq { h with arrays := h.arrays ++ new, responses := rs } p := by
  obtain ⟨hp, hs⟩ := hv
  refine ⟨hp, ?_⟩
  show Slice.wf (h.deref p).ServiceIds _
  cases hd : (h.deref p).ServiceIds with
  | nil => trivial
  | mk a off n c =>
    rw [hd] at hs
    have ha : a < h.arrays.length := hs.1
    have hn : n ≤ c := hs.2.1
    have hb : off + n ≤ (h.arrays.getD a []).length := hs.2.2
    refine ⟨?_, hn, ?_⟩
    · show a < (h.arrays ++ new).length
      rw [List.length_append]
      exact Nat.lt_of_lt_of_le ha (Nat.le_add_right _ _)
    · show off + n ≤ ((h.arrays ++ new).getD a []).length
      rw [getD_append_lt _ _ _ _ ha]
      exact hb

/-- Growing the array and response tables keeps the identifier sequence of every
valid request. -/
theorem requestIds_frame {U : Type} (h : Heap U) (new : List (List String))
    (rs : List DeployServiceResponse) (p : Addr) (hv : h.validReq p) :
    Heap.requestIds { h with arrays := h.arrays ++ new, responses := rs } p =
      h.requestIds p := by
  simp only [Heap.requestIds, Heap.elems, Heap.deref]
  apply List.map_congr_left
  intro i _
  exact index_append_of_wf h (h.deref p).ServiceIds new hv.2 i

/-- What the caller of a valid present request sees: the request's identifier
sequence and no error. -/
theorem observe_some {U : Type} (grow : Nat → Nat) (h : Heap U) (s : Addr) (ctx : Context)
    (p : Addr) (hv : h.validReq p) :
    observe (DeployService grow h s ctx (some p)) = (some (h.requestIds p), none) := by
  obtain ⟨buf, hrun, hcont⟩ := DeployService_some grow h s ctx p
  rw [hrun]
  simp only [observe, Option.map_some', Option.map_none', responseIds_new]
  rw [hcont hv]

/-- Every call leaves the request and server tables as they were and only
extends the array and response tables. -/
theorem DeployService_frame {U : Type} (grow : Nat → Nat) (h : Heap U) (s : Addr)
    (ctx : Context) (req : Option Addr) :
    ∃ (new : List (List String)) (rs : List DeployServiceResponse),
      (DeployService grow h s ctx req).1 =
        { h with arrays := h.arrays ++ new, responses := h.responses ++ rs } := by
  cases req with
  | none => exact ⟨[], [], by simp [DeployService]⟩
  | some p =>
    obtain ⟨buf, hrun, _⟩ := DeployService_some grow h s ctx p
    exact ⟨[buf], [{ ServiceIds := .mk h.arrays.length 0 buf.length buf.length }], by rw [hrun]⟩

/-- What a caller sees does not change when the call is made on a heap that
earlier calls have extended. -/
theorem observe_frame {U : Type} (grow : Nat → Nat) (h : Heap U) (new : List (List String))
    (rs : List DeployServiceResponse) (s s' : Addr) (ctx ctx' : Context) (req : Option Addr)
    (hv : ∀ p, req = some p → h.validReq p) :
    observe (DeployService grow { h with arrays := h.arrays ++ new, responses := rs } s' ctx' req)
      = observe (DeployService grow h s ctx req) := by
  cases req with
  | none => rfl
  | some p =>
    rw [observe_some grow _ s' ctx' p (validReq_frame h new rs p (hv p rfl)),
      observe_some grow h s ctx p (hv p rfl), requestIds_frame h new rs p (hv p rfl)]

/-- In a sequence of calls, each caller sees what it would have seen had its
call been the only one. -/
theorem serve_get {U : Type} (grow : Nat → Nat) (cs : List Call) :
    ∀ (h : Heap U) (i : Nat) (c : Call),
      (∀ c ∈ cs, ∀ p, c.req = some p → h.validReq p) → cs[i]? = some c →
      (serve grow h cs).2[i]? = some (observe (DeployService grow h c.s c.ctx c.req)) := by
  induction cs with
  | nil => intro h i c _ hc; simp at hc
  | cons c0 cs ih =>
    intro h i c hv hc
    cases i with
    | zero =>
      simp only [List.getElem?_cons_zero, Option.some.injEq] at hc
      subst hc
      simp [serve]
    | succ i =>
      simp only [List.getElem?_cons_succ] at hc
      obtain ⟨new, rs, hfr⟩ := DeployService_frame grow h c0.s c0.ctx c0.req
      have hv' : ∀ c ∈ cs, ∀ p, c.req = some p →
          (DeployService grow h c0.s c0.ctx c0.req).1.validReq p := by
        intro c' hc' p hp
        rw [hfr]
        exact validReq_frame h new _ p (hv c' (List.mem_cons_of_mem _ hc') p hp)
      have := ih (DeployService grow h c0.s c0.ctx c0.req).1 i c hv' hc
      simp only [serve, List.getElem?_cons_succ]
      rw [this, hfr]
      have hc' : c ∈ cs := List.getElem?_mem hc
      rw [observe_frame grow h new _ c.s c.s c.ctx c.ctx c.req
        (fun p hp => hv c (List.mem_cons_of_mem _ hc') p hp)]

/-! ## The claims about `DeployService` -/

/-- C1 (pass-through): a call with a valid present request whose identifier
sequence is `S` returns no error and a pointer to a freshly allocated response
message whose identifier sequence is exactly `S`. -/
theorem DeployService_pass_through {U : Type} (grow : Nat → Nat) (h : Heap U) (s : Addr)
    (ctx : Context) (p : Addr) (S : List String) (hv : h.validReq p)
    (hS : h.requestIds p = S) :
    ∃ r : Addr,
      (DeployService grow h s ctx (some p)).2 = (some r, none) ∧
      h.responses.length ≤ r ∧
      r < (DeployService grow h s ctx (some p)).1.responses.length ∧
      (DeployService grow h s ctx (some p)).1.responseIds r = S := by
  obtain ⟨buf, hrun, hcont⟩ := DeployService_some grow h s ctx p
  refine ⟨h.responses.length, ?_, Nat.le_refl _, ?_, ?_⟩
  · rw [hrun]
  · rw [hrun]; simp
  · rw [hrun, responseIds_new, hcont hv, hS]

/-- Witness of C1: the request of the repository's test, `["1", "2", "3"]`. -/
theorem DeployService_pass_through_witness :
    testHeap.validReq 0 ∧ testHeap.requestIds 0 = ["1", "2", "3"] ∧
    ∃ r : Addr,
      (DeployService double testHeap 0 todoCtx (some 0)).2 = (some r, none) ∧
      testHeap.responses.length ≤ r ∧
      r < (DeployService double testHeap 0 todoCtx (some 0)).1.responses.length ∧
      (DeployService double testHeap 0 todoCtx (some 0)).1.responseIds r = ["1", "2", "3"] :=
  ⟨by decide, by decide,
    DeployService_pass_through double testHeap 0 todoCtx 0 ["1", "2", "3"] (by decide)
      (by decide)⟩

/-- C2 (null rejection): a call with a nil request, on every heap, receiver and
context, returns a nil response and an error whose message is exactly
"bad request - nil DeployServiceRequest"; the heap is left as it was, so no
response message has been allocated. -/
theorem DeployService_nil_rejected {U : Type} (grow : Nat → Nat) (h : Heap U) (s : Addr)
    (ctx : Context) :
    ∃ e : GoError,
      DeployService grow h s ctx none = (h, none, some e) ∧
      e.Error = "bad request - nil DeployServiceRequest" :=
  ⟨errors.New "bad request - nil DeployServiceRequest", rfl, rfl⟩

/-- C3 as stated fails: for the nil request, the returned error neither carries
the code `InvalidArgument` nor does `status.Code` derive it. -/
theorem DeployService_nil_not_InvalidArgument :
    ¬ ∃ e : GoError,
      (DeployService double testHeap 0 todoCtx none).2.2 = some e ∧
      (e.GRPCStatus = some Code.InvalidArgument ∨
        status.Code (some e) = Code.InvalidArgument) := by
  rintro ⟨e, he, hc⟩
  have : e = errors.New "bad request - nil DeployServiceRequest" := by
    simp only [DeployService, Option.some.injEq] at he
    exact he.symm
  subst this
  rcases hc with hc | hc
  · simp [errors.New, GoError.GRPCStatus] at hc
  · simp [errors.New, status.Code, GoError.GRPCStatus] at hc

/-- C3 (amended): for the nil request the returned error is the plain value
`errors.New("bad request - nil DeployServiceRequest")`: it has that message, it
carries no gRPC status code, and the code `status.Code` derives from it is
`Unknown`. -/
theorem DeployService_nil_error_plain {U : Type} (grow : Nat → Nat) (h : Heap U) (s : Addr)
    (ctx : Context) :
    ∃ e : GoError,
      (DeployService grow h s ctx none).2.2 = some e ∧
      e = errors.New "bad request - nil DeployServiceRequest" ∧
      e.Error = "bad request - nil DeployServiceRequest" ∧
      e.GRPCStatus = none ∧
      status.Code (some e) = Code.Unknown :=
  ⟨errors.New "bad request - nil DeployServiceRequest", rfl, rfl, rfl, rfl, rfl⟩

/-- C4 (fails if and only if the request is absent): on every heap, receiver and
context, the call returns an error exactly when the request pointer is nil. -/
theorem DeployService_error_iff_nil {U : Type} (grow : Nat → Nat) (h : Heap U) (s : Addr)
    (ctx : Context) (req : Option Addr) :
    (DeployService grow h s ctx req).2.2 ≠ none ↔ req = none := by
  cases req with
  | none => simp [DeployService]
  | some p =>
    obtain ⟨buf, hrun, _⟩ := DeployService_some grow h s ctx p
    rw [hrun]
    simp

/-- C5 (determinism and idempotence): when a sequence of calls is run on one
heap, two calls with the same request, wherever they stand in the sequence and
whatever calls stand between them, show their callers the same result, and that
result is the one the call would have given had it been made alone. -/
theorem DeployService_deterministic {U : Type} (grow : Nat → Nat) (h : Heap U)
    (cs : List Call) (hv : ∀ c ∈ cs, ∀ p, c.req = some p → h.validReq p)
    (i j : Nat) (ci cj : Call) (hi : cs[i]? = some ci) (hj : cs[j]? = some cj)
    (hreq : ci.req = cj.req) :
    ∃ o : Option (List String) × Option String,
      (serve grow h cs).2[i]? = some o ∧ (serve grow h cs).2[j]? = some o ∧
      o = observe (DeployService grow h ci.s ci.ctx ci.req) := by
  refine ⟨_, serve_get grow cs h i ci hv hi, ?_, rfl⟩
  rw [serve_get grow cs h j cj hv hj, ← hreq]
  rfl

/-- Witness of C5: the first and the third call of `testCalls`. -/
theorem DeployService_deterministic_witness :
    ∃ o : Option (List String) × Option String,
      (serve double testHeap testCalls).2[0]? = some o ∧
      (serve double testHeap testCalls).2[2]? = some o ∧
      o = observe (DeployService double testHeap 0 todoCtx (some 0)) :=
  DeployService_deterministic double testHeap testCalls
    (by
      intro c hc p hp
      simp only [testCalls, List.mem_cons, List.mem_singleton, List.not_mem_nil, or_false] at hc
      rcases hc with rfl | rfl | rfl
      · cases hp; decide
      · cases hp
      · cases hp; decide)
    0 2 { s := 0, ctx := todoCtx, req := some 0 } { s := 0, ctx := cancelledCtx, req := some 0 }
    rfl rfl rfl

/-- C6 (no mutation): after every call, with a present or a nil request, the
server table and the request table are what they were, the array and response
tables have only been extended by fresh entries, and every request that was
valid before the call is still valid and has the identifier sequence it had. -/
theorem DeployService_no_mutation {U : Type} (grow : Nat → Nat) (h : Heap U) (s : Addr)
    (ctx : Context) (req : Option Addr) :
    (DeployService grow h s ctx req).1.servers = h.servers ∧
    (DeployService grow h s ctx req).1.requests = h.requests ∧
    (∃ new, (DeployService grow h s ctx req).1.arrays = h.arrays ++ new) ∧
    (∃ rs, (DeployService grow h s ctx req).1.responses = h.responses ++ rs) ∧
    (∀ q, h.validReq q →
      (DeployService grow h s ctx req).1.validReq q ∧
      (DeployService grow h s ctx req).1.requestIds q = h.requestIds q) := by
  obtain ⟨new, rs, hfr⟩ := DeployService_frame grow h s ctx req
  rw [hfr]
  exact ⟨rfl, rfl, ⟨new, rfl⟩, ⟨rs, rfl⟩, fun q hq =>
    ⟨validReq_frame h new _ q hq, requestIds_frame h new _ q hq⟩⟩

/-- Witness of C6: after the call with the test's request, that request still
reads `["1", "2", "3"]` and the server table is the one before the call. -/
theorem DeployService_no_mutation_witness :
    (DeployService double testHeap 0 todoCtx (some 0)).1.servers = testHeap.servers ∧
    (DeployService double testHeap 0 todoCtx (some 0)).1.requestIds 0 = ["1", "2", "3"] :=
  ⟨(DeployService_no_mutation double testHeap 0 todoCtx (some 0)).1,
    ((DeployService_no_mutation double testHeap 0 todoCtx (some 0)).2.2.2.2 0
      (by decide)).2.trans (by decide)⟩

/-- C7 (context independence): two calls that differ only in their context
return the same response pointer and error and leave the same heap. -/
theorem DeployService_context_independent {U : Type} (grow : Nat → Nat) (h : Heap U)
    (s : Addr) (c1 c2 : Context) (req : Option Addr) :
    DeployService grow h s c1 req = DeployService grow h s c2 req :=
  rfl

/-- C9 (exactly one of response and error): every call returns either a non-nil
response with a nil error or a nil response with a non-nil error. -/
theorem DeployService_response_xor_error {U : Type} (grow : Nat → Nat) (h : Heap U)
    (s : Addr) (ctx : Context) (req : Option Addr) :
    ((DeployService grow h s ctx req).2.1 ≠ none ∧ (DeployService grow h s ctx req).2.2 = none) ∨
    ((DeployService grow h s ctx req).2.1 = none ∧ (DeployService grow h s ctx req).2.2 ≠ none) := by
  cases req with
  | none => right; simp [DeployService]
  | some p =>
    obtain ⟨buf, hrun, _⟩ := DeployService_some grow h s ctx p
    left
    rw [hrun]
    simp

/-! ## A call run alone -/

theorem schedule_cons {U : Type} (grow : Nat → Nat) (st : Heap U × List Thread) (i : Nat)
    (sched : List Nat) :
    schedule grow st (i :: sched) = schedule grow (turn grow st i) sched :=
  rfl

/-- A call at the head of its loop, given all the turns, runs the rest of the
copy loop and returns the response allocated over its result. -/
theorem schedule_loop_alone {U : Type} (grow : Nat → Nat) (src : Slice) :
    ∀ (k i : Nat) (h : Heap U) (dst : Slice),
      schedule grow (h, [.loop src i k dst]) (List.replicate (2 * k + 1) 0) =
        (((rangeLoop grow src i k h dst).1.newResponse
            { ServiceIds := (rangeLoop grow src i k h dst).2 }).1,
          [.done (some ((rangeLoop grow src i k h dst).1.newResponse
            { ServiceIds := (rangeLoop grow src i k h dst).2 }).2) none]) := by
  intro k
  induction k with
  | zero => intro i h dst; rfl
  | succ k ih =>
    intro i h dst
    have h2 : 2 * (k + 1) + 1 = (2 * k + 1) + 1 + 1 := by omega
    rw [h2, List.replicate_succ, List.replicate_succ, schedule_cons, schedule_cons]
    exact ih (i + 1) (append grow h dst (h.index src i)).1 (append grow h dst (h.index src i)).2

/-- A call given all the turns it needs, alone on the heap, does what
`DeployService` does: the same heap, the same response pointer, the same error. -/
theorem schedule_alone {U : Type} (grow : Nat → Nat) (h : Heap U) (c : Call) :
    schedule grow (h, [.start c]) (List.replicate ((Thread.start c).remaining h) 0) =
      ((DeployService grow h c.s c.ctx c.req).1,
        [.done (DeployService grow h c.s c.ctx c.req).2.1
          (DeployService grow h c.s c.ctx c.req).2.2]) := by
  cases hc : c.req with
  | none =>
    simp [Thread.remaining, hc, schedule, turn, Thread.step, DeployService]
  | some p =>
    have h2 : (Thread.start c).remaining h =
        (2 * len (h.deref p).ServiceIds + 1) + 1 + 1 := by
      simp [Thread.remaining, hc]
    rw [h2, List.replicate_succ, List.replicate_succ, schedule_cons, schedule_cons]
    simp only [turn, Thread.step, hc, List.getElem?_cons_zero, List.set_cons_zero]
    exact schedule_loop_alone grow _ _ 0 _ _

/-! ## Calls run concurrently -/

theorem getD_set_self {α : Type} (l : List α) (a : Nat) (v d : α) (ha : a < l.length) :
    (l.set a v).getD a d = v := by
  simp [List.getD_eq_getElem?_getD, List.getElem?_set, ha]

theorem getD_set_ne {α : Type} (l : List α) (a b : Nat) (v d : α) (hab : a ≠ b) :
    (l.set a v).getD b d = l.getD b d := by
  simp [List.getD_eq_getElem?_getD, List.getElem?_set, hab]

theorem take_succ_map_range {α : Type} (f : Nat → α) (n i : Nat) (hi : i < n) :
    ((List.range n).map f).take (i + 1) = ((List.range n).map f).take i ++ [f i] := by
  rw [List.take_succ]
  simp [hi]

theorem eq_of_take_length {α : Type} (l1 l2 : List α) (n : Nat) (h1 : l1.length = n)
    (h2 : l2.length = n) (h : l1.take n = l2.take n) : l1 = l2 := by
  rw [← h1, List.take_length] at h
  rw [h, h1, ← h2, List.take_length]

theorem length_requestIds {U : Type} (h : Heap U) (p : Addr) :
    (h.requestIds p).length = len (h.deref p).ServiceIds := by
  simp [Heap.requestIds, Heap.elems]

/-- A well-formed slice of `h0` reads the same in every heap that has kept the
arrays of `h0`. -/
theorem index_pre {U : Type} (h0 h : Heap U) (src : Slice) (hs : src.wf h0)
    (hpre : ∀ b, b < h0.arrays.length → h.arrays.getD b [] = h0.arrays.getD b []) (i : Nat) :
    h.index src i = h0.index src i := by
  cases src with
  | nil => rfl
  | mk a off n c =>
    have ha : a < h0.arrays.length := hs.1
    simp only [Heap.index]
    rw [hpre a ha]

theorem Frame.refl {U : Type} (h : Heap U) (w : Option Addr) : Frame h h w :=
  ⟨rfl, ⟨[], by simp⟩, Nat.le_refl _, fun _ _ _ => rfl⟩

/-- The invariant of a call survives every step that writes no array of its. -/
theorem Good.frame {U : Type} {h0 h h' : Heap U} {c : Call} {o w : Option Addr} {t : Thread}
    (hg : Good h0 h c o t) (hf : Frame h h' w)
    (hb : ∀ a, o = some a → a < h.arrays.length ∧ some a ≠ w) : Good h0 h' c o t := by
  cases hg with
  | start => exact .start
  | made p a hc hl =>
    obtain ⟨ha, hw⟩ := hb a rfl
    exact .made p a hc (by rw [hf.arrays a ha hw]; exact hl)
  | loop p a i k hc hik hl htk =>
    obtain ⟨ha, hw⟩ := hb a rfl
    exact .loop p a i k hc hik (by rw [hf.arrays a ha hw]; exact hl)
      (by rw [hf.arrays a ha hw]; exact htk)
  | fetched p a i k hc hik hl htk =>
    obtain ⟨ha, hw⟩ := hb a rfl
    exact .fetched p a i k hc hik (by rw [hf.arrays a ha hw]; exact hl)
      (by rw [hf.arrays a ha hw]; exact htk)
  | doneNil hc => exact .doneNil hc
  | done p a r hc hr hresp harr =>
    obtain ⟨ha, hw⟩ := hb a rfl
    obtain ⟨rs, hrs⟩ := hf.responses
    refine .done p a r hc ?_ ?_ ?_
    · rw [hrs, List.length_append]
      exact Nat.lt_of_lt_of_le hr (Nat.le_add_right _ _)
    · rw [hrs, getD_append_lt _ _ _ _ hr]
      exact hresp
    · rw [hf.arrays a ha hw]
      exact harr

/-- One step of a call keeps its invariant, writes no array but its own, and
what it comes to own it has just allocated. -/
theorem Good.step {U : Type} (grow : Nat → Nat) {h0 h : Heap U} {c : Call} {o : Option Addr}
    {t : Thread} (hg : Good h0 h c o t) (hreq : h.requests = h0.requests)
    (hpre : ∀ b, b < h0.arrays.length → h.arrays.getD b [] = h0.arrays.getD b [])
    (hv : ∀ p, c.req = some p → h0.validReq p)
    (hb : ∀ a, o = some a → a < h.arrays.length) :
    ∃ o', Good h0 (t.step grow h).1 c o' (t.step grow h).2 ∧
      Frame h (t.step grow h).1 o' ∧
      (o' = o ∨
        (o' = some h.arrays.length ∧ h.arrays.length < (t.step grow h).1.arrays.length)) := by
  have hderef : ∀ p, h.deref p = h0.deref p := fun p => by simp only [Heap.deref, hreq]
  cases hg with
  | start =>
    cases hc : c.req with
    | none =>
      refine ⟨none, ?_, ?_, Or.inl rfl⟩
      · simp only [Thread.step, hc]
        exact .doneNil hc
      · simp only [Thread.step, hc]
        exact Frame.refl h _
    | some p =>
      refine ⟨some h.arrays.length, ?_, ?_, Or.inr ⟨rfl, ?_⟩⟩
      · simp only [Thread.step, hc, make, hderef]
        exact .made p _ hc (by simp [getD_length_append])
      · simp only [Thread.step, hc, make]
        exact ⟨rfl, ⟨[], by simp⟩, by simp, fun b hb' _ => getD_append_lt _ _ _ _ hb'⟩
      · simp [Thread.step, hc, make]
  | made p a hc hl =>
    refine ⟨some a, ?_, ?_, Or.inl rfl⟩
    · simp only [Thread.step, hderef]
      exact .loop p a 0 _ hc (by omega) hl (by simp)
    · exact Frame.refl h _
  | loop p a i k hc hik hl htk =>
    cases k with
    | zero =>
      have hi : i = len (h0.deref p).ServiceIds := by omega
      refine ⟨some a, ?_, ?_, Or.inl rfl⟩
      · simp only [Thread.step, Heap.newResponse]
        refine .done p a h.responses.length hc (by simp) ?_ ?_
        · rw [getD_length_append, hi]
        · refine eq_of_take_length _ _ _ hl (length_requestIds h0 p) ?_
          rw [← hi]
          exact htk
      · simp only [Thread.step, Heap.newResponse]
        exact ⟨rfl, ⟨_, rfl⟩, Nat.le_refl _, fun _ _ _ => rfl⟩
    | succ k =>
      refine ⟨some a, ?_, ?_, Or.inl rfl⟩
      · simp only [Thread.step]
        rw [index_pre h0 h _ (hv p hc).2 hpre i]
        exact .fetched p a i k hc (by omega) hl htk
      · exact Frame.refl h _
  | fetched p a i k hc hik hl htk =>
    have ha : a < h.arrays.length := hb a rfl
    have hi : i < len (h0.deref p).ServiceIds := by omega
    have hi' : i < (h.arrays.getD a []).length := by rw [hl]; exact hi
    refine ⟨some a, ?_, ?_, Or.inl rfl⟩
    · simp only [Thread.step, append, hi, if_true, Nat.zero_add]
      refine .loop p a (i + 1) k hc (by omega) ?_ ?_
      · show ((h.arrays.set a _).getD a []).length = _
        rw [getD_set_self _ _ _ _ ha, List.length_set]
        exact hl
      · show ((h.arrays.set a _).getD a []).take (i + 1) = _
        rw [getD_set_self _ _ _ _ ha, take_succ_set _ _ _ hi', htk]
        simp only [Heap.requestIds, Heap.elems]
        rw [take_succ_map_range _ _ _ hi]
    · simp only [Thread.step, append, hi, if_true, Nat.zero_add]
      refine ⟨rfl, ⟨[], by simp⟩, by simp, fun b _ hne => ?_⟩
      show (h.arrays.set a _).getD b [] = _
      exact getD_set_ne _ _ _ _ _ (fun hab => hne (by rw [hab]))
  | doneNil hc =>
    exact ⟨none, .doneNil hc, Frame.refl h _, Or.inl rfl⟩
  | done p a r hc hr hresp harr =>
    exact ⟨some a, .done p a r hc hr hresp harr, Frame.refl h _, Or.inl rfl⟩

theorem Inv.init {U : Type} (h0 : Heap U) (cs : List Call) :
    Inv h0 cs (h0, cs.map Thread.start) := by
  refine ⟨rfl, Nat.le_refl _, fun _ _ => rfl, fun _ => none, by simp, by simp, ?_⟩
  intro i t ht
  rw [List.getElem?_map] at ht
  cases hc : cs[i]? with
  | none => simp [hc] at ht
  | some c =>
    simp only [hc, Option.map_some', Option.some.injEq] at ht
    subst ht
    exact ⟨c, rfl, .start⟩

theorem turn_get_self {U : Type} (grow : Nat → Nat) (st : Heap U × List Thread) (i : Nat)
    (t : Thread) (ht : st.2[i]? = some t) :
    (turn grow st i).2[i]? = some (t.step grow st.1).2 := by
  have hi : i < st.2.length := (List.getElem?_eq_some.mp ht).1
  simp only [turn, ht]
  exact List.getElem?_set_self hi

theorem turn_get_ne {U : Type} (grow : Nat → Nat) (st : Heap U × List Thread) (i j : Nat)
    (hji : j ≠ i) : (turn grow st j).2[i]? = st.2[i]? := by
  unfold turn
  cases st.2[j]? with
  | none => rfl
  | some t => exact List.getElem?_set_ne hji

/-- A turn of any call keeps the invariant of all the calls. -/
theorem Inv.turn {U : Type} (grow : Nat → Nat) {h0 : Heap U} {cs : List Call}
    (hv : ∀ c ∈ cs, ∀ p, c.req = some p → h0.validReq p) {st : Heap U × List Thread}
    (hI : Inv h0 cs st) (i : Nat) : Inv h0 cs (GrpcServer.turn grow st i) := by
  cases hti : st.2[i]? with
  | none =>
    have : GrpcServer.turn grow st i = st := by simp only [GrpcServer.turn, hti]
    rw [this]
    exact hI
  | some t =>
    have hturn : GrpcServer.turn grow st i = ((t.step grow st.1).1, st.2.set i (t.step grow st.1).2) := by
      simp only [GrpcServer.turn, hti]
    rw [hturn]
    obtain ⟨hreq, hlen, hpre, own, hbound, hinj, hgood⟩ := hI
    obtain ⟨c, hc, hg⟩ := hgood i t hti
    obtain ⟨o', hg', hf, ho⟩ := Good.step grow hg hreq hpre (hv c (List.getElem?_mem hc))
      (fun a ha => (hbound i a ha).2)
    have hA : ∀ a, o' = some a →
        h0.arrays.length ≤ a ∧ a < (t.step grow st.1).1.arrays.length := by
      intro a ha
      rcases ho with ho | ⟨ho, hlt⟩
      · rw [ho] at ha
        exact ⟨(hbound i a ha).1, Nat.lt_of_lt_of_le (hbound i a ha).2 hf.length⟩
      · rw [ho] at ha
        cases ha
        exact ⟨hlen, hlt⟩
    have hB : ∀ j a, j ≠ i → own j = some a → some a ≠ o' := by
      intro j a hji hj hao
      rcases ho with ho | ⟨ho, _⟩
      · rw [ho] at hao
        exact hji (hinj j i a hj hao.symm)
      · rw [ho] at hao
        cases hao
        exact Nat.lt_irrefl _ (hbound j _ hj).2
    refine ⟨hf.requests.trans hreq, Nat.le_trans hlen hf.length, ?_, Function.update own i o',
      ?_, ?_, ?_⟩
    · intro b hb
      rw [hf.arrays b (Nat.lt_of_lt_of_le hb hlen) ?_]
      · exact hpre b hb
      · intro hbo
        exact Nat.not_lt.mpr (hA b hbo.symm).1 hb
    · intro j a hj
      by_cases hji : j = i
      · subst hji
        rw [Function.update_same] at hj
        exact hA a hj
      · rw [Function.update_noteq hji] at hj
        exact ⟨(hbound j a hj).1, Nat.lt_of_lt_of_le (hbound j a hj).2 hf.length⟩
    · intro j k a hj hk
      by_cases hji : j = i
      · by_cases hki : k = i
        · rw [hji, hki]
        · rw [hji, Function.update_same] at hj
          rw [Function.update_noteq hki] at hk
          exact absurd hj.symm (hB k a hki hk)
      · by_cases hki : k = i
        · rw [hki, Function.update_same] at hk
          rw [Function.update_noteq hji] at hj
          exact absurd hk.symm (hB j a hji hj)
        · rw [Function.update_noteq hji] at hj
          rw [Function.update_noteq hki] at hk
          exact hinj j k a hj hk
    · intro j tj htj
      by_cases hji : j = i
      · subst hji
        have hlt : j < st.2.length := (List.getElem?_eq_some.mp hti).1
        rw [show (st.2.set j (t.step grow st.1).2)[j]? = some (t.step grow st.1).2 from
          List.getElem?_set_self hlt] at htj
        cases htj
        rw [Function.update_same]
        exact ⟨c, hc, hg'⟩
      · rw [show (st.2.set i (t.step grow st.1).2)[j]? = st.2[j]? from
          List.getElem?_set_ne (Ne.symm hji)] at htj
        obtain ⟨cj, hcj, hgj⟩ := hgood j tj htj
        rw [Function.update_noteq hji]
        exact ⟨cj, hcj, hgj.frame hf (fun a ha => ⟨(hbound j a ha).2, hB j a hji ha⟩)⟩

/-- Every schedule keeps the invariant of all the calls. -/
theorem Inv.schedule {U : Type} (grow : Nat → Nat) {h0 : Heap U} {cs : List Call}
    (hv : ∀ c ∈ cs, ∀ p, c.req = some p → h0.validReq p) (sched : List Nat) :
    ∀ st : Heap U × List Thread, Inv h0 cs st → Inv h0 cs (GrpcServer.schedule grow st sched) := by
  induction sched with
  | nil => intro st hI; exact hI
  | cons j sched ih =>
    intro st hI
    rw [schedule_cons]
    exact ih _ (hI.turn grow hv j)

/-- Each step of a call brings it one step nearer to its return. -/
theorem Thread.remaining_step {U : Type} (grow : Nat → Nat) (h0 h : Heap U) (t : Thread)
    (hreq : h.requests = h0.requests) :
    (t.step grow h).2.remaining h0 = t.remaining h0 - 1 := by
  have hderef : ∀ p, h.deref p = h0.deref p := fun p => by simp only [Heap.deref, hreq]
  cases t with
  | start c =>
    cases hc : c.req with
    | none => simp [Thread.step, Thread.remaining, hc]
    | some p => simp [Thread.step, Thread.remaining, hc, hderef]
  | made p dst => simp [Thread.step, Thread.remaining, hderef]
  | loop src i k dst =>
    cases k with
    | zero => simp [Thread.step, Thread.remaining]
    | succ k => simp only [Thread.step, Thread.remaining]; omega
  | fetched src i k dst id => simp [Thread.step, Thread.remaining]
  | done resp err => rfl

theorem Thread.remaining_eq_zero {U : Type} (h0 : Heap U) (t : Thread)
    (ht : t.remaining h0 = 0) : ∃ resp err, t = .done resp err := by
  cases t with
  | start c =>
    cases hc : c.req with
    | none => simp [Thread.remaining, hc] at ht
    | some p => simp [Thread.remaining, hc] at ht
  | made p dst => simp [Thread.remaining] at ht
  | loop src i k dst => simp [Thread.remaining] at ht
  | fetched src i k dst id => simp [Thread.remaining] at ht
  | done resp err => exact ⟨resp, err, rfl⟩

/-- Under every schedule, a call is as many steps nearer to its return as it got
turns. -/
theorem schedule_remaining {U : Type} (grow : Nat → Nat) {h0 : Heap U} {cs : List Call}
    (hv : ∀ c ∈ cs, ∀ p, c.req = some p → h0.validReq p) (sched : List Nat) :
    ∀ (st : Heap U × List Thread), Inv h0 cs st → ∀ (i : Nat) (t : Thread),
      st.2[i]? = some t →
      ∃ t', (schedule grow st sched).2[i]? = some t' ∧
        t'.remaining h0 = t.remaining h0 - sched.count i := by
  induction sched with
  | nil => intro st _ i t ht; exact ⟨t, ht, by simp⟩
  | cons j sched ih =>
    intro st hI i t ht
    rw [schedule_cons]
    by_cases hji : j = i
    · subst hji
      obtain ⟨t', ht', hr⟩ := ih _ (hI.turn grow hv j) j _ (turn_get_self grow st j t ht)
      refine ⟨t', ht', ?_⟩
      rw [hr, Thread.remaining_step grow h0 st.1 t hI.requests, List.count_cons_self]
      omega
    · obtain ⟨t', ht', hr⟩ := ih _ (hI.turn grow hv j) i t
        ((turn_get_ne grow st i j hji).trans ht)
      refine ⟨t', ht', ?_⟩
      rw [hr, List.count_cons_of_ne (Ne.symm hji)]

/-- What the caller of a returned call sees, in whatever heap the other calls
have left, is what `DeployService` alone would have shown it. -/
theorem Good.observe_done {U : Type} (grow : Nat → Nat) {h0 h : Heap U} {c : Call}
    {o : Option Addr} {resp : Option Addr} {err : Option GoError}
    (hg : Good h0 h c o (.done resp err)) (hv : ∀ p, c.req = some p → h0.validReq p) :
    observe (h, resp, err) = observe (DeployService grow h0 c.s c.ctx c.req) ∧
    ∀ p, c.req = some p → ∃ r, resp = some r ∧ err = none ∧
      h.responseIds r = h0.requestIds p := by
  cases hg with
  | doneNil hc =>
    rw [hc]
    exact ⟨rfl, fun p hp => by cases hp⟩
  | done p a r hc hr hresp harr =>
    have hids : h.responseIds r = h0.requestIds p := by
      have h1 : h.responseIds r =
          List.map
            (h.index (.mk a 0 (len (h0.deref p).ServiceIds) (len (h0.deref p).ServiceIds)))
            (List.range (len (h0.deref p).ServiceIds)) := by
        simp only [Heap.responseIds, hresp]
        rfl
      have h2 : h.index (.mk a 0 (len (h0.deref p).ServiceIds) (len (h0.deref p).ServiceIds)) =
          fun j => (h0.requestIds p).getD j "" := by
        funext j
        simp only [Heap.index, Nat.zero_add, harr]
      rw [h1, h2, ← length_requestIds h0 p, map_getD_range]
    refine ⟨?_, fun q hq => ?_⟩
    · rw [hc, observe_some grow h0 c.s c.ctx p (hv p hc)]
      simp only [observe, Option.map_some', Option.map_none', hids]
    · rw [hc] at hq
      cases hq
      exact ⟨r, rfl, rfl, hids⟩

/-- C8 (determinism under concurrency): for every list of calls with valid (or
nil) requests issued on one heap, and for every schedule that interleaves their
steps on that heap, a call that has returned shows its caller what
`DeployService` alone would have shown it; for a present request that is a
response holding that request's identifier sequence, which is the sequence of no
other call's request that differs from it.  A call that got as many turns as it
has steps to take (three, and two for each identifier) has returned.  Given all
the turns, alone, a call is `DeployService`. -/
theorem DeployService_concurrent {U : Type} (grow : Nat → Nat) (h0 : Heap U) (cs : List Call)
    (hv : ∀ c ∈ cs, ∀ p, c.req = some p → h0.validReq p) (sched : List Nat)
    (i : Nat) (c : Call) (hc : cs[i]? = some c) :
    (∀ resp err,
      (schedule grow (h0, cs.map Thread.start) sched).2[i]? = some (.done resp err) →
      observe ((schedule grow (h0, cs.map Thread.start) sched).1, resp, err) =
        observe (DeployService grow h0 c.s c.ctx c.req) ∧
      ∀ p, c.req = some p → ∃ r, resp = some r ∧ err = none ∧
        (schedule grow (h0, cs.map Thread.start) sched).1.responseIds r = h0.requestIds p ∧
        ∀ j cj pj, j ≠ i → cs[j]? = some cj → cj.req = some pj →
          h0.requestIds pj ≠ h0.requestIds p →
          (schedule grow (h0, cs.map Thread.start) sched).1.responseIds r ≠
            h0.requestIds pj) ∧
    ((Thread.start c).remaining h0 ≤ sched.count i →
      ∃ resp err,
        (schedule grow (h0, cs.map Thread.start) sched).2[i]? = some (.done resp err)) ∧
    (Thread.start c).remaining h0 =
      (match c.req with
        | none => 1
        | some p => 2 * (h0.requestIds p).length + 3) ∧
    schedule grow (h0, [.start c]) (List.replicate ((Thread.start c).remaining h0) 0) =
      ((DeployService grow h0 c.s c.ctx c.req).1,
        [.done (DeployService grow h0 c.s c.ctx c.req).2.1
          (DeployService grow h0 c.s c.ctx c.req).2.2]) := by
  have hI := Inv.schedule grow hv sched _ (Inv.init h0 cs)
  have hvc : ∀ p, c.req = some p → h0.validReq p := hv c (List.getElem?_mem hc)
  refine ⟨?_, ?_, ?_, schedule_alone grow h0 c⟩
  · intro resp err hdone
    obtain ⟨own, -, -, hgood⟩ := hI.own
    obtain ⟨c', hc', hg⟩ := hgood i _ hdone
    rw [hc] at hc'
    cases hc'
    obtain ⟨hobs, hresp⟩ := hg.observe_done grow hvc
    refine ⟨hobs, fun p hp => ?_⟩
    obtain ⟨r, hr, he, hids⟩ := hresp p hp
    refine ⟨r, hr, he, hids, fun j cj pj _ _ _ hne => ?_⟩
    rw [hids]
    exact fun heq => hne heq.symm
  · intro hturns
    have hstart : (h0, cs.map Thread.start).2[i]? = some (.start c) := by
      simp [List.getElem?_map, hc]
    obtain ⟨t', ht', hr⟩ := schedule_remaining grow hv sched _ (Inv.init h0 cs) i _ hstart
    have h0' : t'.remaining h0 = 0 := by rw [hr]; omega
    obtain ⟨resp, err, hte⟩ := Thread.remaining_eq_zero h0 t' h0'
    exact ⟨resp, err, by rw [ht', hte]⟩
  · cases hreq : c.req with
    | none => simp [Thread.remaining, hreq]
    | some p => simp [Thread.remaining, hreq, length_requestIds]

/-- Witness of C8: the two calls of `twoCalls`, for the distinct sequences
`["1", "2", "3"]` and `["a", "a", ""]`, under the interleaving `twoSchedule`.
The first call has returned, with the response at address 1 (the second call
allocated its response first); that response reads `["1", "2", "3"]`, not the
sequence of the second call's request. -/
theorem DeployService_concurrent_witness :
    (schedule double (twoHeap, twoCalls.map Thread.start) twoSchedule).2[0]? =
      some (.done (some 1) none) ∧
    (schedule double (twoHeap, twoCalls.map Thread.start) twoSchedule).1.responseIds 1 =
      ["1", "2", "3"] ∧
    (schedule double (twoHeap, twoCalls.map Thread.start) twoSchedule).1.responseIds 1 ≠
      ["a", "a", ""] := by
  have hv : ∀ c ∈ twoCalls, ∀ p, c.req = some p → twoHeap.validReq p := by
    intro c hc p hp
    simp only [twoCalls, List.mem_cons, List.mem_singleton, List.not_mem_nil, or_false] at hc
    rcases hc with rfl | rfl
    · cases hp; decide
    · cases hp; decide
  have hdone : (schedule double (twoHeap, twoCalls.map Thread.start) twoSchedule).2[0]? =
      some (.done (some 1) none) := by decide
  obtain ⟨r, hr, -, hids, hne⟩ :=
    ((DeployService_concurrent double twoHeap twoCalls hv twoSchedule 0
      { s := 0, ctx := todoCtx, req := some 0 } rfl).1 _ _ hdone).2 0 rfl
  cases hr
  refine ⟨hdone, hids.trans (by decide), ?_⟩
  have h1 := hne 1 { s := 0, ctx := todoCtx, req := some 1 } 1 (by decide) rfl rfl (by decide)
  exact fun heq => h1 (heq.trans (by decide))

/-! ## The claim about `isVisitedSubType` -/

/-- C10 (visited-type tracking): `isVisitedSubType` returns true exactly when the
type is named and the key made of its package path, a dot and its name is a key
of the map, and then the map is unchanged; when it returns false for a named
type, that key is a key of the map afterwards (with the value true), every
other key is as before, and a second call with the same type on that map
returns true; for an unnamed type, of whatever kind, it returns false and leaves
the map unchanged; on a non-nil map it always returns. -/
theorem isVisitedSubType_spec (t : ReflectType) (m : GoMap) :
    ((∃ m', isVisitedSubType t m = .ok (true, m')) ↔
      (t.Name ≠ "" ∧ (m.lookup (t.PkgPath ++ "." ++ t.Name)).isSome = true)) ∧
    (t.Name ≠ "" ∧ (m.lookup (t.PkgPath ++ "." ++ t.Name)).isSome = true →
      isVisitedSubType t m = .ok (true, m)) ∧
    (∀ m', t.Name ≠ "" → isVisitedSubType t m = .ok (false, m') →
      m'.lookup (t.PkgPath ++ "." ++ t.Name) = some true ∧
      (∀ k, k ≠ t.PkgPath ++ "." ++ t.Name → m'.lookup k = m.lookup k) ∧
      isVisitedSubType t m' = .ok (true, m')) ∧
    (t.Name = "" → isVisitedSubType t m = .ok (false, m)) ∧
    (m ≠ none → ∃ b m', isVisitedSubType t m = .ok (b, m')) := by
  have hq : t.PkgPath ++ "." ++ t.Name = qualifiedName t := rfl
  rw [hq]
  refine ⟨?_, ?_, ?_, ?_, ?_⟩
  · constructor
    · rintro ⟨m', hm'⟩
      unfold isVisitedSubType at hm'
      by_cases hn : t.Name = ""
      · simp [hn] at hm'
      · refine ⟨hn, ?_⟩
        by_cases hk : (m.lookup (qualifiedName t)).isSome = true
        · exact hk
        · cases m with
          | none => simp [hn, hk] at hm'
          | some f => simp [hn, hk] at hm'
    · rintro ⟨hn, hk⟩
      exact ⟨m, by simp [isVisitedSubType, hn, hk]⟩
  · rintro ⟨hn, hk⟩
    simp [isVisitedSubType, hn, hk]
  · intro m' hn hm'
    unfold isVisitedSubType at hm'
    by_cases hk : (m.lookup (qualifiedName t)).isSome = true
    · simp [hn, hk] at hm'
    · cases m with
      | none => simp [hn, hk] at hm'
      | some f =>
        simp only [hn, hk, if_false, Bool.false_eq_true, Except.ok.injEq, Prod.mk.injEq,
          true_and] at hm'
        subst hm'
        refine ⟨by simp [GoMap.lookup], ?_, ?_⟩
        · intro k hne
          simp [GoMap.lookup, Function.update, hne]
        · simp [isVisitedSubType, hn, GoMap.lookup]
  · intro hn
    simp [isVisitedSubType, hn]
  · intro hm
    cases m with
    | none => exact absurd rfl hm
    | some f =>
      unfold isVisitedSubType
      by_cases hn : t.Name = ""
      · exact ⟨false, some f, by simp [hn]⟩
      · by_cases hk : (GoMap.lookup (some f) (qualifiedName t)).isSome = true
        · exact ⟨true, some f, by simp [hn, hk]⟩
        · exact ⟨false, some (Function.update f (qualifiedName t) (some true)),
            by simp [hn, hk]⟩

/-- Witness of C10: the first visit of `Server` on the empty map returns false
and records the key "go-grpc-server/internal/app/adapter/grpc-server.Server";
the second visit, on the map the first one left, returns true; `Option`, of the
same package, is not visited on that map and is recorded under its own key; the
unnamed slice type `[]string` returns false and leaves the map as it is. -/
theorem isVisitedSubType_spec_witness :
    isVisitedSubType serverType emptyVisited = .ok (false, serverVisited) ∧
    serverVisited.lookup "go-grpc-server/internal/app/adapter/grpc-server.Server" = some true ∧
    isVisitedSubType serverType serverVisited = .ok (true, serverVisited) ∧
    (∃ m', isVisitedSubType optionType serverVisited = .ok (false, m') ∧
      m'.lookup "go-grpc-server/internal/app/adapter/grpc-server.Option" = some true ∧
      m'.lookup "go-grpc-server/internal/app/adapter/grpc-server.Server" = some true) ∧
    isVisitedSubType stringSliceType serverVisited = .ok (false, serverVisited) :=
  have hs : serverType.PkgPath ++ "." ++ serverType.Name =
      "go-grpc-server/internal/app/adapter/grpc-server.Server" := by decide
  have ho : optionType.PkgPath ++ "." ++ optionType.Name =
      "go-grpc-server/internal/app/adapter/grpc-server.Option" := by decide
  have h1 : isVisitedSubType serverType emptyVisited = .ok (false, serverVisited) := by
    have hn : serverType.Name ≠ "" := by decide
    simp [isVisitedSubType, qualifiedName, hs, hn, emptyVisited, serverVisited, GoMap.lookup]
  have h2 := (isVisitedSubType_spec serverType emptyVisited).2.2.1 serverVisited (by decide) h1
  have h3 : isVisitedSubType optionType serverVisited =
      .ok (false, some (Function.update (Function.update (fun _ => none)
        "go-grpc-server/internal/app/adapter/grpc-server.Server" (some true))
        "go-grpc-server/internal/app/adapter/grpc-server.Option" (some true))) := by
    have hn : optionType.Name ≠ "" := by decide
    simp [isVisitedSubType, qualifiedName, ho, hn, serverVisited, GoMap.lookup, Function.update]
  have h4 := (isVisitedSubType_spec optionType serverVisited).2.2.1 _ (by decide) h3
  ⟨h1, hs ▸ h2.1, h2.2.2,
    ⟨_, h3, ho ▸ h4.1, (h4.2.1 _ (by rw [ho]; decide)).trans (hs ▸ h2.1)⟩,
    (isVisitedSubType_spec stringSliceType serverVisited).2.2.2.1 rfl⟩

end GrpcServer
